import Mathlib

/-!
Verification of the log-file watcher in run_watcher.py (class LogWatcher).

The development shallowly embeds the watcher: file contents are lists of
bytes (Nat), the filesystem is a pair of association lists (directory
entries and inodes), and each Python method becomes a Lean function that
returns the list of observable events (callback invocations, table
insertions/removals, handle opens/closes, log lines) it produces together
with the updated state.  Machine-level concerns (errno values other than
ENOENT, text decoding) are outside the claims and are not modelled.
-/

set_option maxRecDepth 8192

namespace LogWatcher

/-- Bytes of a file are modelled as a list of natural numbers (one per byte). -/
abbrev Bytes := List Nat

/-- Newline byte used by the watcher (it only ever looks for b-backslash-n, 10). -/
def NL : Nat := 10

/-- Model of Python file.readlines line splitting on a binary file: split after
every newline byte 10, keeping the terminators, with a possibly unterminated
final line.  This is the splitting the incremental readlines path performs. -/
def splitKeepEnds : Bytes → List Bytes
  | [] => []
  | b :: t =>
    match splitKeepEnds t with
    | [] => [[b]]
    | l :: ls => if b = 10 then [10] :: l :: ls else (b :: l) :: ls

/-- Model of Python bytes.splitlines, used by LogWatcher.tail: terminators are
LF, CR and CRLF, and they are dropped from the returned lines. -/
def splitlinesB : Bytes → List Bytes
  | [] => []
  | 13 :: 10 :: t => [] :: splitlinesB t
  | 10 :: t => [] :: splitlinesB t
  | 13 :: t => [] :: splitlinesB t
  | b :: t =>
    match splitlinesB t with
    | [] => [[b]]
    | l :: ls => (b :: l) :: ls

/-- Model of Python data.count(b-newline): number of newline bytes. -/
def countNl (bs : Bytes) : Nat := bs.count 10

/-- Model of the Python slice xs[-n:]: the last n elements (all of them when
there are fewer than n). -/
def lastN (n : Nat) (xs : List α) : List α := xs.drop (xs.length - n)

/-- Block size of the backward tail scan, BUFSIZ = 1024 in LogWatcher.tail. -/
def BUFSIZ : Nat := 1024

/-- The backward block scan of LogWatcher.tail.  The Python loop keeps a block
index (block = -k), reads BUFSIZ bytes ending BUFSIZ*k bytes before EOF (or
the remaining prefix once the window reaches the start of the file), prepends
them to the accumulated data and stops as soon as the data holds at least
window newlines or the start of the file was read.  The recursion is
expressed with explicit fuel so the kernel can evaluate it; each iteration
moves the window BUFSIZ bytes closer to the start of the file, so
bs.length + 1 units of fuel always outlast the loop and the out-of-fuel
branch is unreachable. -/
def tailDataFuel (bs : Bytes) (window : Nat) : Nat → Nat → Bytes → Bytes
  | 0, _, data => data
  | fuel + 1, k, data =>
    if bs.length ≤ k * BUFSIZ then
      -- f.seek(0); f.read(BUFSIZ - (abs(step) - fsize)); exit = True
      bs.take (BUFSIZ - (k * BUFSIZ - bs.length)) ++ data
    else
      -- f.seek(step, SEEK_END); f.read(BUFSIZ)
      let data' := (bs.drop (bs.length - k * BUFSIZ)).take BUFSIZ ++ data
      if window ≤ countNl data' then data' else tailDataFuel bs window fuel (k + 1) data'

/-- The backward block scan, entered at block index k with accumulated data
and enough fuel for the whole file. -/
def tailData (bs : Bytes) (window k : Nat) (data : Bytes) : Bytes :=
  tailDataFuel bs window (bs.length + 1) k data

/-- Error message raised by LogWatcher.tail on a non-positive window
("invalid window value %r" with the decimal representation of the window). -/
def tailErrMsg (window : Int) : String := "invalid window value " ++ toString window

/-- Model of LogWatcher.tail(fname, window) where bs is the content of the
file: validation error on window <= 0, otherwise the backward block scan
followed by data.splitlines()[-window:]. -/
def tail (bs : Bytes) (window : Int) : Except String (List Bytes) :=
  if window ≤ 0 then .error (tailErrMsg window)
  else .ok (lastN window.toNat (splitlinesB (tailData bs window.toNat 1 [])))

/-- Decidable equality of tail results, so that concrete tail computations
can be settled by decide. -/
instance {ε α : Type} [DecidableEq ε] [DecidableEq α] : DecidableEq (Except ε α) := fun a b =>
  match a, b with
  | .error e1, .error e2 =>
    if h : e1 = e2 then .isTrue (by rw [h]) else .isFalse (fun hh => h (Except.error.inj hh))
  | .error _, .ok _ => .isFalse (fun hh => Except.noConfusion hh)
  | .ok _, .error _ => .isFalse (fun hh => Except.noConfusion hh)
  | .ok a1, .ok a2 =>
    if h : a1 = a2 then .isTrue (by rw [h]) else .isFalse (fun hh => h (Except.ok.inj hh))

/-- Lowercase hexadecimal digit character, as produced by Python's %x. -/
def hexDigitChar (n : Nat) : Char :=
  if n < 10 then Char.ofNat (48 + n) else Char.ofNat (87 + n)

/-- Hex digits of a number, most significant first (empty on 0), with
explicit fuel: dividing by 16 each step, n units of fuel always suffice for
the value n, so the out-of-fuel branch is unreachable from toHexCore. -/
def toHexFuel : Nat → Nat → List Char
  | 0, _ => []
  | fuel + 1, n => if n = 0 then [] else toHexFuel fuel (n / 16) ++ [hexDigitChar (n % 16)]

/-- Hex digits of a positive number, most significant first (empty on 0). -/
def toHexCore (n : Nat) : List Char := toHexFuel n n

/-- Model of Python "%x" % n: minimal lowercase hex representation, "0" for 0. -/
def toHex (n : Nat) : List Char := if n = 0 then ['0'] else toHexCore n

/-- Model of LogWatcher.get_file_id(st) on POSIX: "%xg%x" % (st_dev, st_ino). -/
def get_file_id (dev ino : Nat) : String := String.mk (toHex dev ++ 'g' :: toHex ino)

/-- Extension of a file name as computed by os.path.splitext(x)[1][1:]: the
characters after the last dot, except that the leading run of dots of the
name never starts an extension. -/
def extOf (s : List Char) : List Char :=
  let rest := s.dropWhile (fun c => c = '.')
  if rest.contains '.' then (rest.reverse.takeWhile (fun c => c ≠ '.')).reverse else []

/-- Model of LogWatcher.listdir: filter the directory listing by the extension
allow-list when one is configured and non-empty (Python truthiness of
self.extensions), then replace the whole listing by [logfile] when the
configured logfile is a member of the filtered listing. -/
def listdir (names : List String) (extensions : Option (List String)) (logfile : Option String) :
    List String :=
  let ls := match extensions with
    | some exts =>
        if exts.isEmpty then names
        else names.filter (fun x => exts.contains (String.mk (extOf x.data)))
    | none => names
  match logfile with
  | some lf => if ls.contains lf then [lf] else ls
  | none => ls

/-- Observable events of a watcher run: callback invocations, the log/notify
hook, table mutations and handle opens/closes, in program order. -/
inductive Ev where
  | cb (name : String) (lines : List Bytes)
  | logEv (msg : String)
  | tableDel (fid : String)
  | tableIns (fid : String)
  | openEv (ino : Nat)
  | closeEv (ino : Nat)
deriving DecidableEq

/-- Association-list lookup with decidable key equality (model of dict access
and of os.stat resolving a path). -/
def alookup [DecidableEq κ] (k : κ) : List (κ × α) → Option α
  | [] => none
  | (k', v) :: t => if k = k' then some v else alookup k t

/-- Dict update: replace the value in place when the key is present, append
the binding otherwise (Python dict insertion-order semantics). -/
def ainsert [DecidableEq κ] (k : κ) (v : α) : List (κ × α) → List (κ × α)
  | [] => [(k, v)]
  | (k', v') :: t => if k = k' then (k, v) :: t else (k', v') :: ainsert k v t

/-- Dict deletion: remove the (unique) binding of the key. -/
def aerase [DecidableEq κ] (k : κ) : List (κ × α) → List (κ × α)
  | [] => []
  | (k', v) :: t => if k = k' then t else (k', v) :: aerase k t

/-- Key membership test ("fid in self._files_map"). -/
def hasKey [DecidableEq κ] (k : κ) : List (κ × α) → Bool
  | [] => false
  | (k', _) :: t => if k = k' then true else hasKey k t

/-- An open binary file object: the path it was opened under, the inode it
refers to (reads keep working after the path is unlinked), and its position. -/
structure Handle where
  name : String
  ino : Nat
  pos : Nat
deriving DecidableEq

/-- The filesystem visible to the watcher: the watched directory (name to
inode) and the inode store (inode to content).  An unlinked file disappears
from dir but its inode stays readable through open handles. -/
structure FS where
  dir : List (String × Nat)
  inodes : List (Nat × Bytes)
deriving DecidableEq

/-- Model of os.stat(path).st_ino: the inode currently backing the path,
none when the stat raises ENOENT. -/
def FS.statIno (fs : FS) (p : String) : Option Nat := alookup p fs.dir

/-- Content of an inode (empty for an unknown inode, which never arises in
the runs considered). -/
def FS.content (fs : FS) (ino : Nat) : Bytes := (alookup ino fs.inodes).getD []

/-- Names in the directory, as os.listdir returns them. -/
def FS.names (fs : FS) : List String := fs.dir.map Prod.fst

/-- Model of os.path.getsize(path), 0 when the path is gone (within one
atomic reconciliation the paths just statted are still present). -/
def FS.sizeOfPath (fs : FS) (p : String) : Nat :=
  ((fs.statIno p).map (fun i => (fs.content i).length)).getD 0

/-- The watcher state: self._files_map, a dict from file id to open file. -/
structure WState where
  files_map : List (String × Handle)
deriving DecidableEq

/-- File identity of an inode.  The model has a single filesystem, so st_dev
is the constant 0 and the id is get_file_id 0 ino, exactly the "%xg%x"
encoding of the source. -/
def fidOf (ino : Nat) : String := get_file_id 0 ino

/-- One file.readlines(sizehint) call on the lines remaining after the file
position: lines are accumulated until the collected size reaches the hint
(the first available line is always returned). -/
def takeHint (hint : Nat) : List Bytes → List Bytes
  | [] => []
  | l :: ls => l :: (if hint ≤ l.length then [] else takeHint (hint - l.length) ls)

/-- The "while True: lines = file.readlines(sizehint); if not lines: break;
self._callback(file.name, lines)" loop of LogWatcher.readlines, expressed on
the list of remaining lines with explicit fuel: one callback event per
non-empty readlines batch, until the lines are exhausted.  Every batch
holds at least one line, so fuel equal to the number of remaining lines
outlasts the loop and the out-of-fuel branch is unreachable. -/
def readlinesFuel (hint : Nat) (name : String) : Nat → List Bytes → List Ev
  | 0, _ => []
  | _, [] => []
  | fuel + 1, l :: ls =>
    Ev.cb name (takeHint hint (l :: ls)) ::
      readlinesFuel hint name fuel ((l :: ls).drop (takeHint hint (l :: ls)).length)

/-- The readlines while-loop on a list of remaining lines. -/
def readlinesLoop (hint : Nat) (name : String) (ls : List Bytes) : List Ev :=
  readlinesFuel hint name ls.length ls

/-- Model of LogWatcher.readlines(file): deliver every batch to the callback,
advance the file position to EOF, and return the Python return value of the
method, which is None because the method has no return statement. -/
def readlines (hint : Nat) (content : Bytes) (h : Handle) :
    List Ev × Handle × Option (List Bytes) :=
  (readlinesLoop hint h.name (splitKeepEnds (content.drop h.pos)),
   { h with pos := h.pos + (content.drop h.pos).length },
   none)

/-- Python truthiness of the "lines" local in LogWatcher.unwatch. -/
def truthy : Option (List Bytes) → Bool
  | none => false
  | some [] => false
  | some (_ :: _) => true

/-- Model of LogWatcher.unwatch(file, fid): log, delete the table entry,
then inside the with-block drain the file via readlines (which calls the
callback itself) and run the dead "if lines:" re-delivery branch on its None
return value; the with-block closes the handle on exit. -/
def unwatch (hint : Nat) (fs : FS) (st : WState) (h : Handle) (fid : String) :
    List Ev × WState :=
  let st' : WState := ⟨aerase fid st.files_map⟩
  let r := readlines hint (fs.content h.ino) h
  let extra := if truthy r.2.2 then [Ev.cb h.name ((r.2.2).getD [])] else []
  (Ev.logEv ("un-watching logfile " ++ h.name) :: Ev.tableDel fid ::
     (r.1 ++ extra ++ [Ev.closeEv h.ino]), st')

/-- Model of LogWatcher.watch(fname).  The filesystem is sampled twice, once
by self.open(fname) and once by os.stat(fname), so that the race in which the
file vanishes between the two calls is expressible: in that case the ENOENT
is swallowed and the already-opened handle is neither closed nor recorded. -/
def watch (fsAtOpen fsAtStat : FS) (st : WState) (fname : String) : List Ev × WState :=
  match fsAtOpen.statIno fname with
  | none => ([], st)
  | some ino =>
    match fsAtStat.statIno fname with
    | none => ([Ev.openEv ino], st)
    | some ino2 =>
      ([Ev.openEv ino, Ev.logEv ("watching logfile " ++ fname), Ev.tableIns (fidOf ino2)],
       ⟨ainsert (fidOf ino2) ⟨fname, ino, 0⟩ st.files_map⟩)

/-- Model of LogWatcher.update_files: build the candidate list from listdir
and stat, drain entries whose path is gone or was rotated (re-watching the
rotated path immediately), then watch the candidates not yet in the table. -/
def update_files (hint : Nat) (exts : Option (List String)) (lf : Option String)
    (fs : FS) (st : WState) : List Ev × WState :=
  let ls := (listdir fs.names exts lf).filterMap
    (fun n => (fs.statIno n).map (fun i => (fidOf i, n)))
  let step2 := st.files_map.foldl
    (fun (acc : List Ev × WState) (e : String × Handle) =>
      match fs.statIno e.2.name with
      | none =>
        let r := unwatch hint fs acc.2 e.2 e.1
        (acc.1 ++ r.1, r.2)
      | some ino2 =>
        if e.1 ≠ fidOf ino2 then
          let r := unwatch hint fs acc.2 e.2 e.1
          let r2 := watch fs fs r.2 e.2.name
          (acc.1 ++ r.1 ++ r2.1, r2.2)
        else acc)
    (([], st) : List Ev × WState)
  ls.foldl
    (fun (acc : List Ev × WState) (p : String × String) =>
      if hasKey p.1 acc.2.files_map then acc
      else
        let r := watch fs fs acc.2 p.2
        (acc.1 ++ r.1, r.2))
    step2

/-- One iteration of LogWatcher.loop (a polling tick): update_files, then
readlines on every file of the table, recording the advanced positions. -/
def tick (hint : Nat) (exts : Option (List String)) (lf : Option String)
    (fs : FS) (st : WState) : List Ev × WState :=
  let u := update_files hint exts lf fs st
  let r := u.2.files_map.foldl
    (fun (acc : List Ev × WState) (e : String × Handle) =>
      let rr := readlines hint (fs.content e.2.ino) e.2
      (acc.1 ++ rr.1, ⟨ainsert e.1 rr.2.1 acc.2.files_map⟩))
    (([], u.2) : List Ev × WState)
  (u.1 ++ r.1, r.2)

/-- Model of LogWatcher.__init__ after the configuration checks: update_files
on an empty table, then for every watched file seek to os.path.getsize
(EOF) and, when tail_lines is non-zero, deliver the tail of the file through
the callback if it is non-empty. -/
def initWatcher (hint : Nat) (exts : Option (List String)) (lf : Option String)
    (tail_lines : Nat) (fs : FS) : List Ev × WState :=
  let u := update_files hint exts lf fs ⟨[]⟩
  let st2 : WState :=
    ⟨u.2.files_map.map (fun e => (e.1, { e.2 with pos := fs.sizeOfPath e.2.name }))⟩
  let e2 := if tail_lines ≠ 0 then
      st2.files_map.foldl
        (fun (acc : List Ev) (e : String × Handle) =>
          match fs.statIno e.2.name with
          | none => acc
          | some i =>
            match tail (fs.content i) (Int.ofNat tail_lines) with
            | .error _ => acc
            | .ok lines => if lines ≠ [] then acc ++ [Ev.cb e.2.name lines] else acc)
        []
    else []
  (u.1 ++ e2, st2)

/-- Environment actions interleaved with the watcher: append bytes to the
watched file, or run one polling tick. -/
inductive Act where
  | app (bs : Bytes)
  | tick

/-- Filesystem in which the single watched file exists: path f backed by
inode n with content c. -/
def mkFS (f : String) (n : Nat) (c : Bytes) : FS := ⟨[(f, n)], [(n, c)]⟩

/-- Filesystem after the watched file was unlinked: the directory is empty
but the inode content stays readable through the open handle. -/
def goneFS (n : Nat) (c : Bytes) : FS := ⟨[], [(n, c)]⟩

/-- Run a sequence of appends and ticks against the single watched file,
returning the final content, the final watcher state and the emitted events. -/
def runActs (hint : Nat) (f : String) (n : Nat) :
    List Act → Bytes → WState → Bytes × WState × List Ev
  | [], c, st => (c, st, [])
  | Act.app bs :: as, c, st => runActs hint f n as (c ++ bs) st
  | Act.tick :: as, c, st =>
    let r := tick hint none none (mkFS f n c) st
    let rest := runActs hint f n as c r.2
    (rest.1, rest.2.1, r.1 ++ rest.2.2)

/-- Concatenation of all bytes appended by a sequence of actions. -/
def appended : List Act → Bytes
  | [] => []
  | Act.app bs :: as => bs ++ appended as
  | Act.tick :: as => appended as

/-- Concatenation of all bytes handed to the callback by a list of events,
in delivery order. -/
def cbBytes : List Ev → Bytes
  | [] => []
  | Ev.cb _ lines :: evs => lines.flatten ++ cbBytes evs
  | Ev.logEv _ :: evs => cbBytes evs
  | Ev.tableDel _ :: evs => cbBytes evs
  | Ev.tableIns _ :: evs => cbBytes evs
  | Ev.openEv _ :: evs => cbBytes evs
  | Ev.closeEv _ :: evs => cbBytes evs

/-- The callback events of an event list. -/
def isCb : Ev → Bool
  | Ev.cb _ _ => true
  | _ => false

/-- The table-removal events of an event list. -/
def isDel : Ev → Bool
  | Ev.tableDel _ => true
  | _ => false

/-- Callback events only, in order. -/
def cbEvs (evs : List Ev) : List Ev := evs.filter isCb

/-- The ordering stated by the removal-drain claim: every callback delivery
in the event list happens before every removal of a table entry. -/
def deliveriesPrecedeRemoval (evs : List Ev) : Prop :=
  ∀ i j : Fin evs.length, isCb (evs.get i) → isDel (evs.get j) → (i : Nat) < (j : Nat)

instance (evs : List Ev) : Decidable (deliveriesPrecedeRemoval evs) := by
  unfold deliveriesPrecedeRemoval; infer_instance

/-- The full exactly-once scenario of the delivery claim: the watcher is
constructed over the single file f with initial content c0 (tail_lines = 0),
an arbitrary interleaving of appends and polling ticks runs, and finally the
file is unlinked and one more tick runs, which drains and unwatches it. -/
def scenarioC1 (hint : Nat) (f : String) (n : Nat) (c0 : Bytes) (acts : List Act) :
    List Ev :=
  let st0 := (initWatcher hint none none 0 (mkFS f n c0)).2
  let r := runActs hint f n acts c0 st0
  r.2.2 ++ (tick hint none none (goneFS n r.1) r.2.1).1

/-- Concatenating the keepends line split restores the bytes. -/
theorem splitKeepEnds_flatten : ∀ bs : Bytes, (splitKeepEnds bs).flatten = bs
  | [] => rfl
  | b :: t => by
    have ih := splitKeepEnds_flatten t
    rw [splitKeepEnds]
    cases h : splitKeepEnds t with
    | nil =>
      rw [h] at ih
      simp only [List.flatten_nil] at ih
      simp [← ih]
    | cons l ls =>
      rw [h] at ih
      by_cases hb : b = 10
      · subst hb; simp only [if_pos rfl, List.flatten_cons] at ih ⊢
        simp [ih]
      · simp only [if_neg hb, List.flatten_cons] at ih ⊢
        simp [ih]

/-- One readlines(sizehint) batch is an initial segment of the remaining
lines: the batch followed by the lines it leaves over is the original list. -/
theorem takeHint_spec : ∀ (hint : Nat) (xs : List Bytes),
    takeHint hint xs ++ xs.drop (takeHint hint xs).length = xs
  | _, [] => rfl
  | hint, l :: ls => by
    rw [takeHint]
    by_cases h : hint ≤ l.length
    · simp [if_pos h]
    · simp only [if_neg h, List.length_cons, List.drop_succ_cons, List.cons_append,
        List.cons.injEq, true_and]
      exact takeHint_spec (hint - l.length) ls

/-- The callback-byte extraction is additive over event concatenation. -/
theorem cbBytes_append : ∀ a b : List Ev, cbBytes (a ++ b) = cbBytes a ++ cbBytes b
  | [], _ => rfl
  | e :: t, b => by
    cases e <;> simp [cbBytes, cbBytes_append t b]

/-- The amount of fuel of the readlines loop is irrelevant as long as it
covers the number of remaining lines. -/
theorem readlinesFuel_congr (hint : Nat) (name : String) :
    ∀ (f1 f2 : Nat) (ls : List Bytes), ls.length ≤ f1 → ls.length ≤ f2 →
      readlinesFuel hint name f1 ls = readlinesFuel hint name f2 ls
  | f1, 0, [], _, _ => by cases f1 <;> rfl
  | f1, f2 + 1, [], _, _ => by cases f1 <;> rfl
  | 0, _, l :: t, h1, _ => by simp at h1
  | f1 + 1, 0, l :: t, _, h2 => by simp at h2
  | f1 + 1, f2 + 1, l :: t, h1, h2 => by
    rw [readlinesFuel, readlinesFuel]
    have hlen : ((l :: t).drop (takeHint hint (l :: t)).length).length ≤ t.length := by
      simp only [takeHint, List.length_cons, List.length_drop]
      omega
    simp only [List.length_cons] at h1 h2
    rw [readlinesFuel_congr hint name f1 f2 _ (by omega) (by omega)]

/-- Unfolding equation of the readlines loop on a non-empty line list. -/
theorem readlinesLoop_cons (hint : Nat) (name : String) (l : Bytes) (ls : List Bytes) :
    readlinesLoop hint name (l :: ls) =
      Ev.cb name (takeHint hint (l :: ls)) ::
        readlinesLoop hint name ((l :: ls).drop (takeHint hint (l :: ls)).length) := by
  rw [readlinesLoop, readlinesLoop, List.length_cons, readlinesFuel]
  have hlen : ((l :: ls).drop (takeHint hint (l :: ls)).length).length ≤ ls.length := by
    simp only [takeHint, List.length_cons, List.length_drop]
    omega
  rw [readlinesFuel_congr hint name ls.length _ _ hlen le_rfl]

/-- The readlines loop delivers exactly the remaining lines, flattened
(length-bounded form used for the recursion). -/
theorem cbBytes_readlinesLoopAux (hint : Nat) (name : String) :
    ∀ (n : Nat) (ls : List Bytes), ls.length ≤ n →
      cbBytes (readlinesLoop hint name ls) = ls.flatten
  | _, [], _ => by rw [readlinesLoop]; rfl
  | 0, l :: t, h => by simp at h
  | n + 1, l :: t, h => by
    rw [readlinesLoop_cons]
    simp only [cbBytes]
    have hlen : ((l :: t).drop (takeHint hint (l :: t)).length).length ≤ n := by
      simp only [takeHint, List.length_cons, List.length_drop]
      simp only [List.length_cons] at h
      omega
    rw [cbBytes_readlinesLoopAux hint name n _ hlen,
      ← List.flatten_append (takeHint hint (l :: t)), takeHint_spec]

/-- The readlines loop delivers exactly the remaining lines, flattened. -/
theorem cbBytes_readlinesLoop (hint : Nat) (name : String) (ls : List Bytes) :
    cbBytes (readlinesLoop hint name ls) = ls.flatten :=
  cbBytes_readlinesLoopAux hint name ls.length ls le_rfl

/-- Gluing a middle byte segment with the trailing segment. -/
theorem seg_glue {α : Type} {x : List α} {i j : Nat} (hij : i ≤ j) (hj : j ≤ x.length) :
    (x.take j).drop i ++ x.drop j = x.drop i := by
  conv_rhs => rw [← List.take_append_drop j x]
  rw [List.drop_append_eq_append_drop]
  have h1 : (x.take j).length = j := by simp; omega
  have h2 : i - (x.take j).length = 0 := by omega
  rw [h2, List.drop_zero]

/-- Splitting a byte segment at an interior position. -/
theorem seg_split {α : Type} {x : List α} {i k j : Nat} (hik : i ≤ k) (hkj : k ≤ j)
    (hj : j ≤ x.length) :
    (x.take j).drop i = (x.take k).drop i ++ (x.take j).drop k := by
  have h1 : k ≤ (x.take j).length := by simp; omega
  have h := seg_glue (x := x.take j) (i := i) (j := k) hik h1
  rw [List.take_take k j x, min_eq_left hkj] at h
  exact h.symm

/-- A segment from a position to itself is empty. -/
theorem seg_self {α : Type} (x : List α) (i : Nat) : (x.take i).drop i = [] := by
  apply List.drop_eq_nil_of_le
  simp



theorem initLemma (hint : Nat) (f : String) (n : Nat) (c0 : Bytes) :
    (initWatcher hint none none 0 (mkFS f n c0)).2 =
      ⟨[(fidOf n, ⟨f, n, c0.length⟩)]⟩ := by
  simp [initWatcher, update_files, listdir, FS.names, FS.statIno, FS.content,
    FS.sizeOfPath, alookup, hasKey, ainsert, watch, mkFS]

theorem tickSame (hint : Nat) (f : String) (n : Nat) (c : Bytes) (pos : Nat)
    (hpos : pos ≤ c.length) :
    tick hint none none (mkFS f n c) ⟨[(fidOf n, ⟨f, n, pos⟩)]⟩ =
      (readlinesLoop hint f (splitKeepEnds (c.drop pos)),
       ⟨[(fidOf n, ⟨f, n, c.length⟩)]⟩) := by
  simp [tick, update_files, listdir, FS.names, FS.statIno, FS.content,
    alookup, hasKey, ainsert, readlines, mkFS]
  omega

theorem tickGone (hint : Nat) (f : String) (n : Nat) (c : Bytes) (pos : Nat) :
    tick hint none none (goneFS n c) ⟨[(fidOf n, ⟨f, n, pos⟩)]⟩ =
      (Ev.logEv ("un-watching logfile " ++ f) :: Ev.tableDel (fidOf n) ::
         (readlinesLoop hint f (splitKeepEnds (c.drop pos)) ++ [Ev.closeEv n]),
       ⟨[]⟩) := by
  simp [tick, update_files, listdir, FS.names, FS.statIno, FS.content,
    alookup, hasKey, ainsert, readlines, unwatch, truthy, aerase, goneFS]



theorem runActs_spec (hint : Nat) (f : String) (n : Nat) :
    ∀ (acts : List Act) (c : Bytes) (pos : Nat), pos ≤ c.length →
      ∃ pos',
        (runActs hint f n acts c ⟨[(fidOf n, ⟨f, n, pos⟩)]⟩).1 = c ++ appended acts ∧
        (runActs hint f n acts c ⟨[(fidOf n, ⟨f, n, pos⟩)]⟩).2.1 =
          ⟨[(fidOf n, ⟨f, n, pos'⟩)]⟩ ∧
        pos ≤ pos' ∧ pos' ≤ (c ++ appended acts).length ∧
        cbBytes (runActs hint f n acts c ⟨[(fidOf n, ⟨f, n, pos⟩)]⟩).2.2 =
          ((c ++ appended acts).take pos').drop pos := by
  intro acts
  induction acts with
  | nil =>
    intro c pos hpos
    refine ⟨pos, ?_⟩
    simp [runActs, appended, cbBytes, seg_self, hpos]
  | cons a as ih =>
    intro c pos hpos
    cases a with
    | app bs =>
      have hpos2 : pos ≤ (c ++ bs).length := by simp; omega
      obtain ⟨pos', h1, h2, h3, h4, h5⟩ := ih (c ++ bs) pos hpos2
      refine ⟨pos', ?_⟩
      rw [runActs]
      simp only [appended, ← List.append_assoc]
      exact ⟨h1, h2, h3, h4, h5⟩
    | tick =>
      obtain ⟨pos', h1, h2, h3, h4, h5⟩ := ih c c.length le_rfl
      refine ⟨pos', ?_⟩
      rw [runActs]
      simp only [tickSame hint f n c pos hpos, appended]
      refine ⟨h1, h2, le_trans hpos h3, h4, ?_⟩
      rw [cbBytes_append, h5, cbBytes_readlinesLoop, splitKeepEnds_flatten]
      rw [seg_split (x := c ++ appended as) (i := pos) (k := c.length) (j := pos')
        (by omega) h3 h4]
      rw [List.take_left c (appended as)]
  


theorem toHexFuel_congr : ∀ (f1 f2 n : Nat), n ≤ f1 → n ≤ f2 →
    toHexFuel f1 n = toHexFuel f2 n := by
  intro f1
  induction f1 with
  | zero =>
    intro f2 n h1 _
    have hn : n = 0 := by omega
    subst hn
    cases f2 <;> simp [toHexFuel]
  | succ f ih =>
    intro f2 n h1 h2
    by_cases hn : n = 0
    · subst hn
      cases f2 <;> simp [toHexFuel]
    · have hd : n / 16 < n := Nat.div_lt_self (by omega) (by omega)
      have hf2 : f2 - 1 + 1 = f2 := by omega
      rw [← hf2, toHexFuel, toHexFuel, if_neg hn, if_neg hn,
        ih (f2 - 1) (n / 16) (by omega) (by omega)]

theorem toHexCore_zero : toHexCore 0 = [] := rfl

theorem toHexCore_succ (k : Nat) :
    toHexCore (k + 1) = toHexCore ((k + 1) / 16) ++ [hexDigitChar ((k + 1) % 16)] := by
  have hd : (k + 1) / 16 < k + 1 := Nat.div_lt_self (by omega) (by omega)
  rw [toHexCore, toHexFuel, if_neg (by omega), toHexCore,
    toHexFuel_congr k ((k + 1) / 16) ((k + 1) / 16) (by omega) le_rfl]

theorem toHexCore_eq_nil {k : Nat} : toHexCore k = [] ↔ k = 0 := by
  cases k with
  | zero => simp [toHexCore, toHexFuel]
  | succ m => rw [toHexCore_succ]; simp

theorem hexDigitChar_inj_lt : ∀ a b : Fin 16, hexDigitChar a = hexDigitChar b → a = b := by
  decide

theorem hexDigitChar_ne_gee : ∀ a : Fin 16, hexDigitChar a ≠ 'g' := by decide

theorem toHexCore_inj : ∀ n m : Nat, toHexCore n = toHexCore m → n = m := by
  intro n
  induction n using Nat.strong_induction_on with
  | _ n ih =>
    intro m h
    match n, m with
    | 0, 0 => rfl
    | 0, m + 1 => rw [toHexCore_zero, toHexCore_succ] at h; simp at h
    | n + 1, 0 => rw [toHexCore_succ, toHexCore_zero] at h; simp at h
    | n + 1, m + 1 =>
      rw [toHexCore_succ, toHexCore_succ] at h
      have hr := congrArg List.reverse h
      simp only [List.reverse_append, List.reverse_cons, List.reverse_nil,
        List.nil_append, List.cons_append, List.cons.injEq] at hr
      obtain ⟨hd, ht⟩ := hr
      have hdig : (n + 1) % 16 = (m + 1) % 16 := by
        have h16a : (n + 1) % 16 < 16 := Nat.mod_lt _ (by omega)
        have h16b : (m + 1) % 16 < 16 := Nat.mod_lt _ (by omega)
        have := hexDigitChar_inj_lt ⟨(n + 1) % 16, h16a⟩ ⟨(m + 1) % 16, h16b⟩ hd
        exact congrArg Fin.val this
      have hdiv : (n + 1) / 16 = (m + 1) / 16 := by
        apply ih ((n + 1) / 16) (Nat.div_lt_self (by omega) (by omega))
        have := congrArg List.reverse ht
        simpa using this
      omega

theorem toHexCore_eq_zero_char : ∀ {m : Nat}, toHexCore m = ['0'] → m = 0 := by
  intro m h
  by_contra hm
  rw [show m = (m - 1) + 1 by omega, toHexCore_succ] at h
  have hlen := congrArg List.length h
  simp only [List.length_append, List.length_cons, List.length_nil] at hlen
  have hx : toHexCore ((m - 1 + 1) / 16) = [] := List.length_eq_zero.mp (by omega)
  rw [hx, List.nil_append] at h
  simp only [List.cons.injEq, and_true] at h
  have hmod : (m - 1 + 1) % 16 = 0 := by
    have h16 : (m - 1 + 1) % 16 < 16 := Nat.mod_lt _ (by omega)
    have h0 : hexDigitChar (0 : Fin 16) = '0' := by decide
    have := hexDigitChar_inj_lt ⟨(m - 1 + 1) % 16, h16⟩ ⟨0, by omega⟩ (by rw [← h0] at h; exact h)
    exact congrArg Fin.val this
  have hdiv : (m - 1 + 1) / 16 = 0 := toHexCore_eq_nil.mp hx
  omega

theorem toHex_inj : ∀ n m : Nat, toHex n = toHex m → n = m := by
  intro n m h
  rw [toHex, toHex] at h
  by_cases hn : n = 0 <;> by_cases hm : m = 0
  · omega
  · rw [if_pos hn, if_neg hm] at h
    exact absurd (toHexCore_eq_zero_char h.symm) hm
  · rw [if_neg hn, if_pos hm] at h
    exact absurd (toHexCore_eq_zero_char h) hn
  · rw [if_neg hn, if_neg hm] at h
    exact toHexCore_inj n m h

theorem toHexCore_no_gee : ∀ n : Nat, ∀ c ∈ toHexCore n, c ≠ 'g' := by
  intro n
  induction n using Nat.strong_induction_on with
  | _ n ih =>
    match n with
    | 0 => intro c hc; rw [toHexCore_zero] at hc; simp at hc
    | n + 1 =>
      intro c hc
      rw [toHexCore_succ] at hc
      rcases List.mem_append.mp hc with h | h
      · exact ih ((n + 1) / 16) (Nat.div_lt_self (by omega) (by omega)) c h
      · have h16 : (n + 1) % 16 < 16 := Nat.mod_lt _ (by omega)
        rw [List.mem_singleton.mp h]
        exact hexDigitChar_ne_gee ⟨(n + 1) % 16, h16⟩

theorem toHex_no_gee : ∀ n : Nat, ∀ c ∈ toHex n, c ≠ 'g' := by
  intro n c hc
  rw [toHex] at hc
  by_cases hn : n = 0
  · rw [if_pos hn] at hc
    rw [List.mem_singleton.mp hc]
    decide
  · rw [if_neg hn] at hc
    exact toHexCore_no_gee n c hc

theorem append_gee_inj : ∀ (xs ys zs ws : List Char), 'g' ∉ xs → 'g' ∉ ys →
    xs ++ 'g' :: zs = ys ++ 'g' :: ws → xs = ys ∧ zs = ws := by
  intro xs
  induction xs with
  | nil =>
    intro ys zs ws _ hy h
    cases ys with
    | nil => simpa using h
    | cons y t =>
      simp only [List.nil_append, List.cons_append, List.cons.injEq] at h
      exact absurd (h.1 ▸ List.mem_cons_self y t) hy
  | cons x xt ih =>
    intro ys zs ws hx hy h
    cases ys with
    | nil =>
      simp only [List.cons_append, List.nil_append, List.cons.injEq] at h
      exact absurd (h.1 ▸ List.mem_cons_self x xt) hx
    | cons y t =>
      simp only [List.cons_append, List.cons.injEq] at h
      obtain ⟨hxy, ht⟩ := h
      have := ih t zs ws (fun hm => hx (List.mem_cons_of_mem x hm))
        (fun hm => hy (List.mem_cons_of_mem y hm)) ht
      exact ⟨by rw [hxy, this.1], this.2⟩

theorem get_file_id_inj {d1 i1 d2 i2 : Nat} :
    get_file_id d1 i1 = get_file_id d2 i2 → d1 = d2 ∧ i1 = i2 := by
  intro h
  rw [get_file_id, get_file_id] at h
  have hl : toHex d1 ++ 'g' :: toHex i1 = toHex d2 ++ 'g' :: toHex i2 := by
    have := congrArg String.data h
    simpa using this
  obtain ⟨h1, h2⟩ := append_gee_inj _ _ _ _
    (fun hm => toHex_no_gee d1 'g' hm rfl) (fun hm => toHex_no_gee d2 'g' hm rfl) hl
  exact ⟨toHex_inj _ _ h1, toHex_inj _ _ h2⟩

theorem fidOf_ne {n1 n2 : Nat} (h : n1 ≠ n2) : fidOf n1 ≠ fidOf n2 := by
  intro he
  exact h (get_file_id_inj he).2

/-- C1: exactly-once ordered delivery.  For every sizehint, watched file,
initial content and interleaving of byte appends with polling ticks, the
concatenation of all line batches delivered to the callback between
construction of the watcher (which seeks to EOF of the initial content) and
the final unwatch (deletion of the file followed by one tick, which drains
it) is exactly the sequence of appended bytes: no byte is delivered twice,
none is skipped, and batches appear in increasing file-offset order. -/
theorem c1_exactly_once_delivery (hint : Nat) (f : String) (n : Nat) (c0 : Bytes)
    (acts : List Act) :
    cbBytes (scenarioC1 hint f n c0 acts) = appended acts := by
  simp only [scenarioC1, initLemma]
  obtain ⟨pos', h1, h2, h3, h4, h5⟩ := runActs_spec hint f n acts c0 c0.length le_rfl
  rw [cbBytes_append, h5, h1, h2, tickGone]
  simp only [cbBytes, cbBytes_append, cbBytes_readlinesLoop, splitKeepEnds_flatten]
  rw [List.append_nil, seg_glue h3 h4, List.drop_left]

/-- C2: rotation ordering.  When the watched path stats to a new inode, one
tick first logs and removes the old entry, drains all trailing unread bytes
of the old file through the callback, closes the old handle, and only then
opens the replacement; the replacement's bytes are delivered strictly after
the drain, and the recorded identity of the new file differs from the old. -/
theorem c2_rotation_ordering (hint : Nat) (f : String) (n1 n2 : Nat)
    (old new : Bytes) (pos : Nat) (hne : n1 ≠ n2) :
    tick hint none none ⟨[(f, n2)], [(n1, old), (n2, new)]⟩
        ⟨[(fidOf n1, ⟨f, n1, pos⟩)]⟩ =
      (Ev.logEv ("un-watching logfile " ++ f) :: Ev.tableDel (fidOf n1) ::
        (readlinesLoop hint f (splitKeepEnds (old.drop pos)) ++
          (Ev.closeEv n1 :: Ev.openEv n2 :: Ev.logEv ("watching logfile " ++ f) ::
            Ev.tableIns (fidOf n2) :: readlinesLoop hint f (splitKeepEnds new))),
       ⟨[(fidOf n2, ⟨f, n2, new.length⟩)]⟩) ∧
    fidOf n1 ≠ fidOf n2 := by
  have hf := fidOf_ne hne
  have hns : n2 ≠ n1 := Ne.symm hne
  refine ⟨?_, hf⟩
  simp [tick, update_files, listdir, FS.names, FS.statIno, FS.content,
    alookup, hasKey, ainsert, aerase, readlines, unwatch, truthy, watch, hf, hns]

/-- C2 witness: a concrete rotation (inode 1 with one unread line "A", path
now backed by inode 2 containing "C") instantiating the rotation-ordering
theorem. -/
theorem c2_rotation_ordering_witness :
    (tick 16 none none ⟨[("f", 2)], [(1, [65, 10]), (2, [67, 10])]⟩
        ⟨[(fidOf 1, ⟨"f", 1, 0⟩)]⟩ =
      (Ev.logEv ("un-watching logfile " ++ "f") :: Ev.tableDel (fidOf 1) ::
        (readlinesLoop 16 "f" (splitKeepEnds (List.drop 0 [65, 10])) ++
          (Ev.closeEv 1 :: Ev.openEv 2 :: Ev.logEv ("watching logfile " ++ "f") ::
            Ev.tableIns (fidOf 2) :: readlinesLoop 16 "f" (splitKeepEnds [67, 10]))),
       ⟨[(fidOf 2, ⟨"f", 2, List.length [67, 10]⟩)]⟩)) ∧
    fidOf 1 ≠ fidOf 2 :=
  c2_rotation_ordering 16 "f" 1 2 [65, 10] [67, 10] 0 (by decide)

/-- C3: the claim that a configured exact filename overrides the extension
filter entirely is false on the code: listdir applies the logfile override
only when the logfile survived the extension filter, so with extensions
log, logfile syslog and directory a.log, b.txt, syslog the result is
a.log alone (syslog is filtered out first), not syslog as its own docstring
and the claim state. -/
theorem c3_filter_precedence_divergence :
    listdir ["a.log", "b.txt", "syslog"] (some ["log"]) (some "syslog") = ["a.log"] ∧
    "syslog" ∉ listdir ["a.log", "b.txt", "syslog"] (some ["log"]) (some "syslog") := by
  constructor
  · decide
  · decide

/-- C4 counterexample: the claim that reconciliation seeks every newly
discovered candidate to EOF (so pre-watch content is never delivered) fails
for files that appear after construction.  A watcher built over directory
a alone, when file b (inode 2, pre-existing content "p" newline) appears,
inserts b at position 0 and the very next tick delivers b's pre-existing
content to the callback. -/
theorem c4_new_watch_counterexample :
    alookup (fidOf 2)
        (update_files 1048576 none none
          ⟨[("a", 1), ("b", 2)], [(1, [111, 10]), (2, [112, 10])]⟩
          (initWatcher 1048576 none none 0 ⟨[("a", 1)], [(1, [111, 10])]⟩).2).2.files_map =
      some ⟨"b", 2, 0⟩ ∧
    Ev.cb "b" [[112, 10]] ∈
      (tick 1048576 none none
        ⟨[("a", 1), ("b", 2)], [(1, [111, 10]), (2, [112, 10])]⟩
        (initWatcher 1048576 none none 0 ⟨[("a", 1)], [(1, [111, 10])]⟩).2).1 := by
  constructor
  · decide
  · decide

/-- C4 amended: only the initial scan performed by the constructor seeks the
watched files to EOF — every handle in the table right after construction
sits at the file's current size — and consequently, for a watcher built with
tail_lines = 0 over a pre-existing file, a subsequent tick delivers exactly
the bytes appended after construction and never the pre-existing content
(files discovered on later ticks are instead opened at position 0). -/
theorem c4_startup_seek_amended :
    (∀ (hint : Nat) (exts : Option (List String)) (lf : Option String) (fs : FS),
      ((initWatcher hint exts lf 0 fs).2.files_map.all
        (fun e => e.2.pos == fs.sizeOfPath e.2.name)) = true) ∧
    (∀ (hint : Nat) (f : String) (n : Nat) (c0 xs : Bytes),
      cbBytes (tick hint none none (mkFS f n (c0 ++ xs))
        (initWatcher hint none none 0 (mkFS f n c0)).2).1 = xs) := by
  constructor
  · intro hint exts lf fs
    simp only [initWatcher, List.all_eq_true, List.mem_map]
    rintro x ⟨e, _he, rfl⟩
    simp
  · intro hint f n c0 xs
    rw [initLemma]
    rw [tickSame hint f n (c0 ++ xs) c0.length (by simp)]
    rw [cbBytes_readlinesLoop, splitKeepEnds_flatten, List.drop_left]

/-- C5 counterexample: the claim that the drained bytes are delivered to the
callback before the entry is removed from the table is false: unwatch
deletes the dict entry first and only then reads the file to EOF, so in the
removal tick the table-removal event precedes the callback delivery. -/
theorem c5_removal_drain_counterexample :
    (tick 1048576 none none ⟨[], [(5, [89])]⟩ ⟨[(fidOf 5, ⟨"f", 5, 0⟩)]⟩).1 =
      [Ev.logEv "un-watching logfile f", Ev.tableDel (fidOf 5),
       Ev.cb "f" [[89]], Ev.closeEv 5] ∧
    ¬ deliveriesPrecedeRemoval
        (tick 1048576 none none ⟨[], [(5, [89])]⟩ ⟨[(fidOf 5, ⟨"f", 5, 0⟩)]⟩).1 := by
  constructor
  · decide
  · decide

/-- C5 amended: when the watched path no longer stats, the next tick
un-watches the file: it removes the table entry, then delivers every
trailing unread byte (such as a "Y" appended since the last poll) to the
callback, and closes the handle last — the drain is delivered within the
removal tick, after the table removal rather than before it. -/
theorem c5_removal_drain_amended (hint : Nat) (f : String) (n : Nat) (c : Bytes)
    (pos : Nat) :
    tick hint none none (goneFS n c) ⟨[(fidOf n, ⟨f, n, pos⟩)]⟩ =
      (Ev.logEv ("un-watching logfile " ++ f) :: Ev.tableDel (fidOf n) ::
        (readlinesLoop hint f (splitKeepEnds (c.drop pos)) ++ [Ev.closeEv n]),
       ⟨[]⟩) ∧
    cbBytes (tick hint none none (goneFS n c) ⟨[(fidOf n, ⟨f, n, pos⟩)]⟩).1 =
      c.drop pos := by
  refine ⟨tickGone hint f n c pos, ?_⟩
  rw [tickGone hint f n c pos]
  simp only [cbBytes, cbBytes_append, cbBytes_readlinesLoop, splitKeepEnds_flatten,
    List.append_nil]

/-- C6 counterexample: tail does not always return the most recent lines.
On a 1025-byte file consisting of 1022 x bytes followed by "ba" and a
newline, tail(path, 1) stops after the first 1024-byte block because that
block already holds one newline, and returns a line truncated at the block
boundary (1021 x bytes and "ba") instead of the file's actual last line
(1022 x bytes and "ba"). -/
theorem c6_tail_counterexample :
    tail (List.replicate 1022 120 ++ [98, 97, 10]) 1 ≠
      Except.ok (lastN 1 (splitlinesB (List.replicate 1022 120 ++ [98, 97, 10]))) := by
  decide

/-- C6 amended: for every file that fits in a single backward block (size at
most BUFSIZ = 1024 bytes) and every positive lineCount, tail returns the
most recent lineCount lines in on-disk order — all lines when the file has
fewer — because the single block read is the whole file. -/
theorem c6_tail_amended (bs : Bytes) (window : Int) (hw : 0 < window)
    (hlen : bs.length ≤ 1024) :
    tail bs window = Except.ok (lastN window.toNat (splitlinesB bs)) := by
  rw [tail, if_neg (by omega)]
  have h1 : bs.length ≤ 1 * BUFSIZ := by simp only [BUFSIZ]; omega
  have h2 : BUFSIZ - (1 * BUFSIZ - bs.length) = bs.length := by
    simp only [BUFSIZ]; omega
  rw [tailData, tailDataFuel, if_pos h1, h2, List.append_nil, List.take_length]

/-- C6 witness: the five-line file of the specification, instantiating the
amended tail theorem at lineCount 3, yields exactly the last three lines. -/
theorem c6_tail_amended_witness :
    tail [97, 10, 98, 10, 99, 10, 100, 10, 101] 3 = Except.ok [[99], [100], [101]] := by
  rw [c6_tail_amended [97, 10, 98, 10, 99, 10, 100, 10, 101] 3 (by decide) (by decide)]
  decide

/-- C7: tail input validation.  For every file content and every lineCount
at most zero, tail raises the ValueError "invalid window value %r" before
touching the file, and returns no result. -/
theorem c7_tail_validation (bs : Bytes) (window : Int) (hw : window ≤ 0) :
    tail bs window = Except.error (tailErrMsg window) := by
  rw [tail, if_pos hw]

/-- C7 witness: tail with lineCount 0 on an empty file raises the
validation error, by the validation theorem at a concrete input. -/
theorem c7_tail_validation_witness :
    tail [] 0 = Except.error (tailErrMsg 0) :=
  c7_tail_validation [] 0 (by decide)

/-- C8: the handle-lifecycle claim is violated by watch.  When the file
exists at self.open(fname) but vanishes before os.stat(fname), the ENOENT
is swallowed and watch returns with the freshly opened handle neither closed
nor recorded in the table: the open event has no matching close and the
state is unchanged, so the handle is leaked, contradicting the claim that
every opened handle is closed exactly once on all exit paths. -/
theorem c8_handle_leak_divergence :
    watch ⟨[("f", 7)], [(7, [65])]⟩ ⟨[], []⟩ ⟨[]⟩ "f" = ([Ev.openEv 7], ⟨[]⟩) := by
  decide

/-- C9: identity soundness.  get_file_id is a function of the stat fields
(st_dev, st_ino), hence deterministic, and the "%xg%x" encoding is
injective: two stat results map to the same identity string exactly when
they agree on both device and inode. -/
theorem c9_identity_injective (d1 i1 d2 i2 : Nat) :
    get_file_id d1 i1 = get_file_id d2 i2 ↔ (d1 = d2 ∧ i1 = i2) := by
  constructor
  · exact get_file_id_inj
  · rintro ⟨rfl, rfl⟩
    rfl

/-- C10: single delivery path in unwatch.  readlines always returns None
(the method has no return statement), so the "if lines:" branch of unwatch
never fires and the callback invocations of unwatch are exactly the ones
made by the readlines loop — the drained lines are delivered once, never a
second time by unwatch. -/
theorem c10_single_delivery_path (hint : Nat) (fs : FS) (st : WState) (h : Handle)
    (fid : String) :
    (readlines hint (fs.content h.ino) h).2.2 = none ∧
    cbEvs (unwatch hint fs st h fid).1 =
      cbEvs (readlines hint (fs.content h.ino) h).1 := by
  refine ⟨rfl, ?_⟩
  simp [unwatch, cbEvs, readlines, truthy, isCb, List.filter_append]

end LogWatcher
